import Mathlib

/-!
Shallow embedding of `website/mailinglists/gsuite.py` (concrexit): the GSuite
mailing-list synchronizer.  The remote directory is modelled as an explicit
state (`Remote`); every executed directory-API call is recorded in a trace
(`Call`); transport failures (`HttpError`) are modelled by a fault oracle
(`Faults`) telling which calls raise.  A call that the Python code wraps in
`try/except HttpError: pass` leaves the state unchanged on failure; a call the
Python code does not wrap propagates the exception, which we model with a
`raised` flag that aborts the surrounding control flow exactly as an exception
would.

Two faithfulness notes, both visible in the source:
* `update_group` (lines 56-63) builds `directory_api.groups().update(...)` but
  never calls `.execute()` on the request, so no remote update call is issued;
  accordingly no call is emitted here.
* the alias listing (lines 74-76) issues a single request and reads
  `aliases_response.get('aliases', [])` without following any page token,
  unlike the group listing (lines 208-217) and member listing (lines 125-134),
  which loop on `nextPageToken`.  The page-level loops are modelled separately
  by `listGroupsAll` / `listMembersAll` / `listAliasesOnce`; the state-level
  semantics presents each successfully listed collection in full, which for
  groups and members is justified by the pagination lemmas below.
-/

set_option linter.unusedVariables false

namespace GSuite

/-- Models `settings.GSUITE_DOMAIN`: a fixed, arbitrary domain string. -/
def gsuiteDomain : String := "example.com"

/-- The formatting `f'{s}@{settings.GSUITE_DOMAIN}'` used for group keys
(lines 37, 57, 59, 75, 88, 97, 113, 126, 131, 147, 156) and for desired
aliases (line 80). -/
def atDomain (s : String) : String := s ++ "@" ++ gsuiteDomain

/-- `GroupData` (gsuite.py lines 15-26). -/
structure GroupData where
  name : String
  description : String
  moderated : Bool := false
  archived : Bool := false
  pfx : String := ""
  aliases : List String := []
  addresses : List String := []
deriving DecidableEq, Repr

/-- The remote directory's state: the group names present in the domain, and
for each group key the member emails and alias addresses. -/
structure Remote where
  groups : List String
  membersOf : String → List String
  aliasesOf : String → List String

/-- Which directory-API calls raise `HttpError`, keyed the way the code keys
them.  `False` everywhere means every issued call succeeds. -/
structure Faults where
  groupsListFails : Bool := false
  memberListFails : String → Bool := fun _ => false
  aliasListFails : String → Bool := fun _ => false
  groupInsertFails : String → Bool := fun _ => false
  groupDeleteFails : String → Bool := fun _ => false
  memberDeleteFails : String → String → Bool := fun _ _ => false
  memberInsertFails : String → String → Bool := fun _ _ => false
  aliasDeleteFails : String → String → Bool := fun _ _ => false
  aliasInsertFails : String → String → Bool := fun _ _ => false

/-- The fault assignment under which every issued remote call succeeds. -/
def noFaults : Faults := {}

/-- One executed directory-API call (one `.execute()` in the Python code), or
the `sleep(0.5)` settling delay of `create_group`. -/
inductive Call where
  | groupsList
  | groupInsert (email name description : String)
  | groupUpdate (key email name description : String)
  | groupDelete (key : String)
  | aliasList (key : String)
  | aliasDelete (key a : String)
  | aliasInsert (key a : String)
  | membersList (key : String)
  | memberDelete (key m : String)
  | memberInsert (key m : String)
  | sleepCall
deriving DecidableEq, Repr

/-- `remove_list = [x for x in existing if x not in new]`
(lines 82, 141, 224). -/
def remove_list (existing desired : List String) : List String :=
  existing.filter (fun x => decide (x ∉ desired))

/-- `insert_list = [x for x in new if x not in existing]`
(lines 83, 142, 225). -/
def insert_list (existing desired : List String) : List String :=
  desired.filter (fun x => decide (x ∉ existing))

/-- Effect on one remote collection of a removal loop (lines 85-92, 144-151):
each `delete` call that does not fail removes the entry; a failing call is
swallowed by `except HttpError: pass` and leaves the collection unchanged. -/
def applyRemovals (fails : String → Bool) (cur : List String) : List String → List String
  | [] => cur
  | x :: xs =>
      applyRemovals fails (if fails x then cur else cur.filter (fun y => decide (y ≠ x))) xs

/-- Effect on one remote collection of an insertion loop (lines 94-103,
153-163): each `insert` call that does not fail adds the entry if absent
(the directory rejects duplicate inserts, and a failing call is swallowed by
`except HttpError: pass`). -/
def applyInserts (fails : String → Bool) (cur : List String) : List String → List String
  | [] => cur
  | x :: xs =>
      applyInserts fails (if fails x then cur else if x ∈ cur then cur else cur ++ [x]) xs

/-- `update_group_members` (lines 117-163).  The member listing (with its
pagination) sits inside `try/except HttpError`: on failure the function
returns, skipping the member sync.  Individual member delete/insert calls are
issued unconditionally and their failures swallowed.  Never raises. -/
def update_group_members (f : Faults) (r : Remote) (group : GroupData) :
    List Call × Remote :=
  let key := atDomain group.name
  if f.memberListFails key then
    ([Call.membersList key], r)
  else
    let existing_members := r.membersOf key
    let new_members := group.addresses
    let rem := remove_list existing_members new_members
    let ins := insert_list existing_members new_members
    let after := applyInserts (f.memberInsertFails key)
        (applyRemovals (f.memberDeleteFails key) existing_members rem) ins
    (Call.membersList key :: (rem.map (Call.memberDelete key) ++ ins.map (Call.memberInsert key)),
     { r with membersOf := fun k => if k = key then after else r.membersOf k })

/-- `update_group_aliases` (lines 68-103).  The alias listing (lines 74-76) is
NOT wrapped in `try/except`, so a listing failure propagates (`raised = true`).
Individual alias delete/insert failures are swallowed. -/
def update_group_aliases (f : Faults) (r : Remote) (group : GroupData) :
    List Call × Remote × Bool :=
  let key := atDomain group.name
  if f.aliasListFails key then
    ([Call.aliasList key], r, true)
  else
    let existing_aliases := r.aliasesOf key
    let new_aliases := group.aliases.map atDomain
    let rem := remove_list existing_aliases new_aliases
    let ins := insert_list existing_aliases new_aliases
    let after := applyInserts (f.aliasInsertFails key)
        (applyRemovals (f.aliasDeleteFails key) existing_aliases rem) ins
    (Call.aliasList key :: (rem.map (Call.aliasDelete key) ++ ins.map (Call.aliasInsert key)),
     { r with aliasesOf := fun k => if k = key then after else r.aliasesOf k }, false)

/-- `update_group` (lines 49-65).  The `groups().update(...)` request is built
but `.execute()` is never called on it (lines 56-63), so no remote call is
issued for the display fields; then aliases are reconciled, then members.
A raise inside `update_group_aliases` propagates. -/
def update_group (f : Faults) (r : Remote) (old_name : String) (group : GroupData) :
    List Call × Remote × Bool :=
  let ar := update_group_aliases f r group
  if ar.2.2 then (ar.1, ar.2.1, true)
  else
    let mr := update_group_members f ar.2.1 group
    (ar.1 ++ mr.1, mr.2, false)

/-- `create_group` (lines 29-46).  `groups().insert(...).execute()` is NOT
wrapped in `try/except`, so an insert failure propagates.  On success the
remote gains a fresh group (empty members, empty aliases), the code sleeps
0.5s, then calls `update_group_members`.  Aliases are never reconciled here. -/
def create_group (f : Faults) (r : Remote) (group : GroupData) :
    List Call × Remote × Bool :=
  let key := atDomain group.name
  let insCall := Call.groupInsert key group.name group.description
  if f.groupInsertFails key then
    ([insCall], r, true)
  else
    let r1 : Remote :=
      { groups := r.groups ++ [group.name]
        membersOf := fun k => if k = key then [] else r.membersOf k
        aliasesOf := fun k => if k = key then [] else r.aliasesOf k }
    let mr := update_group_members f r1 group
    (insCall :: Call.sleepCall :: mr.1, mr.2, false)

/-- `delete_group` (lines 106-114).  `groups().delete(...).execute()` is NOT
wrapped in `try/except`, so a failure propagates. -/
def delete_group (f : Faults) (r : Remote) (group : GroupData) :
    List Call × Remote × Bool :=
  let key := atDomain group.name
  if f.groupDeleteFails key then
    ([Call.groupDelete key], r, true)
  else
    ([Call.groupDelete key],
     { r with groups := r.groups.filter (fun n => decide (n ≠ group.name)) }, false)

/-- One iteration of the converger loop (lines 227-233). -/
def syncStep (f : Faults) (rem ins : List String) (r : Remote) (l : GroupData) :
    List Call × Remote × Bool :=
  if l.name ∈ rem then delete_group f r l
  else if l.name ∈ ins then create_group f r l
  else update_group f r l.name l

/-- The converger loop over the desired descriptors (lines 227-233); an
uncaught exception inside the body aborts the remaining iterations, exactly
as in Python. -/
def syncLoop (f : Faults) (rem ins : List String) : Remote → List GroupData → List Call × Remote × Bool
  | r, [] => ([], r, false)
  | r, l :: ls =>
      let s := syncStep f rem ins r l
      if s.2.2 then (s.1, s.2.1, true)
      else
        let t := syncLoop f rem ins s.2.1 ls
        (s.1 ++ t.1, t.2.1, t.2.2)

/-- `sync_mailinglists` (lines 192-233), with the desired list given
explicitly (the `lists is None` branch only assembles the same argument from
the database).  A group-listing failure is caught and the pass returns with
nothing attempted (lines 219-220). -/
def sync_mailinglists (f : Faults) (r : Remote) (lists : List GroupData) :
    List Call × Remote × Bool :=
  if f.groupsListFails then
    ([Call.groupsList], r, false)
  else
    let existing_groups := r.groups
    let new_groups := lists.map GroupData.name
    let rem := remove_list existing_groups new_groups
    let ins := insert_list existing_groups new_groups
    let t := syncLoop f rem ins r lists
    (Call.groupsList :: t.1, t.2.1, t.2.2)

/-- The accumulator loop shared by the two paginated listings: a first
response's items, then `while 'nextPageToken' in response:` append the next
page's items (lines 211-217 and 128-134). -/
def loopCollect (acc : List String) : List (List String) → List String
  | [] => acc
  | p :: ps => loopCollect (acc ++ p) ps

/-- Group listing over a page sequence (lines 208-218): the first response's
`groups` (absent key gives `[]`), then pages followed until no
`nextPageToken`. -/
def listGroupsAll : List (List String) → List String
  | [] => []
  | p :: ps => loopCollect p ps

/-- Member listing over a page sequence (lines 125-136): same loop shape as
the group listing. -/
def listMembersAll : List (List String) → List String
  | [] => []
  | p :: ps => loopCollect p ps

/-- Alias listing (lines 74-79): a single request; only the first response's
`aliases` are read, no page token is followed. -/
def listAliasesOnce : List (List String) → List String
  | [] => []
  | p :: _ => p

/-- Is this call one of the add/remove (insert/delete) mutations counted by
the idempotence property?  (`groupUpdate` would be an in-place update, not an
add/remove; the semantics never emits it anyway, since `.execute()` is never
called on the built request.) -/
def Call.isMutation : Call → Bool
  | .groupInsert _ _ _ => true
  | .groupDelete _ => true
  | .aliasDelete _ _ => true
  | .aliasInsert _ _ => true
  | .memberDelete _ _ => true
  | .memberInsert _ _ => true
  | _ => false

/-- Does this call address the group named `n` (via its key `n@domain`, or,
for group insertion, its name)?  The domain-wide listing and the sleep address
no particular group. -/
def Call.targets (n : String) : Call → Bool
  | .groupsList => false
  | .sleepCall => false
  | .groupInsert e nm _ => e == atDomain n || nm == n
  | .groupUpdate k e nm _ => k == atDomain n || e == atDomain n || nm == n
  | .groupDelete k => k == atDomain n
  | .aliasList k => k == atDomain n
  | .aliasDelete k _ => k == atDomain n
  | .aliasInsert k _ => k == atDomain n
  | .membersList k => k == atDomain n
  | .memberDelete k _ => k == atDomain n
  | .memberInsert k _ => k == atDomain n

/-! ## Basic lemmas about the diff engine and the reconciliation loops -/

theorem mem_remove_list {x : String} {E D : List String} :
    x ∈ remove_list E D ↔ x ∈ E ∧ x ∉ D := by
  simp [remove_list, List.mem_filter]

theorem mem_insert_list {x : String} {E D : List String} :
    x ∈ insert_list E D ↔ x ∈ D ∧ x ∉ E := by
  simp [insert_list, List.mem_filter]

theorem atDomain_inj {a b : String} (h : atDomain a = atDomain b) : a = b := by
  have h2 := congrArg String.data h
  simp only [atDomain, String.data_append] at h2
  have h3 := List.append_cancel_right (List.append_cancel_right h2)
  cases a; cases b
  exact congrArg String.mk h3

theorem mem_applyRemovals_ff (rem : List String) :
    ∀ (cur : List String) (x : String),
      (x ∈ applyRemovals (fun _ => false) cur rem ↔ x ∈ cur ∧ x ∉ rem) := by
  induction rem with
  | nil => intro cur x; simp [applyRemovals]
  | cons y ys ih =>
      intro cur x
      simp only [applyRemovals, if_neg, Bool.false_eq_true, not_false_eq_true]
      rw [ih]
      simp only [List.mem_filter, decide_eq_true_eq, List.mem_cons]
      constructor
      · rintro ⟨⟨hc, hne⟩, hns⟩
        exact ⟨hc, by rintro (rfl | hx) <;> [exact hne rfl; exact hns hx]⟩
      · rintro ⟨hc, hn⟩
        exact ⟨⟨hc, fun hxy => hn (Or.inl hxy)⟩, fun hx => hn (Or.inr hx)⟩

theorem mem_applyInserts_ff (ins : List String) :
    ∀ (cur : List String) (x : String),
      (x ∈ applyInserts (fun _ => false) cur ins ↔ x ∈ cur ∨ x ∈ ins) := by
  induction ins with
  | nil => intro cur x; simp [applyInserts]
  | cons y ys ih =>
      intro cur x
      simp only [applyInserts, if_neg, Bool.false_eq_true, not_false_eq_true]
      by_cases hy : y ∈ cur
      · rw [if_pos hy, ih]
        simp only [List.mem_cons]
        constructor
        · rintro (hc | hs) <;> [exact Or.inl hc; exact Or.inr (Or.inr hs)]
        · rintro (hc | rfl | hs)
          · exact Or.inl hc
          · exact Or.inl hy
          · exact Or.inr hs
      · rw [if_neg hy, ih]
        simp only [List.mem_append, List.mem_singleton, List.mem_cons]
        tauto

/-! ## Claim theorems: diff engine, pass abort, pagination -/

/-- Claim C3: for all existing-key sets `E` and desired-key sets `D`, the diff
computation returns `to_remove = E ∖ D` and `to_add = D ∖ E`, the two results
are disjoint, and (the computation being a pure total function) its results
are order-independent: permuting either input permutes the outputs. -/
theorem diff_engine_spec (E D : List String) :
    (∀ x, x ∈ remove_list E D ↔ x ∈ E ∧ x ∉ D) ∧
    (∀ x, x ∈ insert_list E D ↔ x ∈ D ∧ x ∉ E) ∧
    (∀ x, ¬(x ∈ remove_list E D ∧ x ∈ insert_list E D)) ∧
    (∀ E' D', E.Perm E' → D.Perm D' →
      (remove_list E' D').Perm (remove_list E D) ∧
      (insert_list E' D').Perm (insert_list E D)) := by
  refine ⟨fun x => mem_remove_list, fun x => mem_insert_list, ?_, ?_⟩
  · rintro x ⟨h1, h2⟩
    exact (mem_insert_list.mp h2).2 (mem_remove_list.mp h1).1
  · intro E' D' hE hD
    constructor
    · have h1 : remove_list E' D' = E'.filter (fun x => decide (x ∉ D)) := by
        apply List.filter_congr
        intro x _
        simp [hD.mem_iff]
      rw [h1, remove_list]
      exact (hE.filter _).symm
    · have h1 : insert_list E' D' = D'.filter (fun x => decide (x ∉ E)) := by
        apply List.filter_congr
        intro x _
        simp [hE.mem_iff]
      rw [h1, insert_list]
      exact (hD.filter _).symm

/-- Witness for C3 at `E = ["a","b"]`, `D = ["b","c"]`. -/
theorem diff_engine_spec_witness :
    "a" ∈ remove_list ["a", "b"] ["b", "c"] ∧
    "c" ∈ insert_list ["a", "b"] ["b", "c"] ∧
    (remove_list ["b", "a"] ["c", "b"]).Perm (remove_list ["a", "b"] ["b", "c"]) :=
  ⟨((diff_engine_spec ["a", "b"] ["b", "c"]).1 "a").mpr ⟨by decide, by decide⟩,
   ((diff_engine_spec ["a", "b"] ["b", "c"]).2.1 "c").mpr ⟨by decide, by decide⟩,
   ((diff_engine_spec ["a", "b"] ["b", "c"]).2.2.2 ["b", "a"] ["c", "b"]
     (by decide) (by decide)).1⟩

/-- Claim C4: if enumerating the remote groups fails with a transport-level
error, `sync_mailinglists` abandons the pass: it returns normally (no raise),
leaves the remote untouched, and its trace holds only the failed listing
attempt — in particular no create/update/delete/member/alias call. -/
theorem groups_list_failure_aborts_pass (f : Faults) (r : Remote)
    (lists : List GroupData) (h : f.groupsListFails = true) :
    sync_mailinglists f r lists = ([Call.groupsList], r, false) ∧
    ∀ c ∈ (sync_mailinglists f r lists).1, c.isMutation = false := by
  have he : sync_mailinglists f r lists = ([Call.groupsList], r, false) := by
    simp [sync_mailinglists, h]
  refine ⟨he, ?_⟩
  rw [he]
  intro c hc
  simp only [List.mem_singleton] at hc
  subst hc
  rfl

/-- A fault assignment under which the group listing fails. -/
def listFailFaults : Faults := { groupsListFails := true }

/-- The empty remote directory. -/
def emptyRemote : Remote := ⟨[], fun _ => [], fun _ => []⟩

/-- Witness for C4: with a failing group listing, the pass on the empty
remote returns exactly the aborted result. -/
theorem groups_list_failure_aborts_pass_witness :
    sync_mailinglists listFailFaults emptyRemote [] =
      ([Call.groupsList], emptyRemote, false) :=
  (groups_list_failure_aborts_pass listFailFaults emptyRemote [] rfl).1

theorem loopCollect_eq (ps : List (List String)) :
    ∀ acc, loopCollect acc ps = acc ++ ps.flatten := by
  induction ps with
  | nil => intro acc; simp [loopCollect]
  | cons p ps ih => intro acc; simp [loopCollect, ih, List.flatten]

/-- Claim C6 counterexample: on a two-page alias response sequence the alias
fetch returns only the first page, not the full collection, while the group
listing on the same page sequence does return the full collection. -/
theorem alias_listing_ignores_later_pages :
    listAliasesOnce [["a1"], ["a2"]] ≠ [["a1"], ["a2"]].flatten ∧
    listGroupsAll [["a1"], ["a2"]] = [["a1"], ["a2"]].flatten := by decide

/-- Claim C6 (amended): the group listing and the member listing follow the
page-token cursor until exhausted and return the concatenation of all pages;
the alias listing issues a single request and returns only the first
response's items. -/
theorem pagination_spec (pages : List (List String)) :
    listGroupsAll pages = pages.flatten ∧ listMembersAll pages = pages.flatten ∧
    listAliasesOnce pages = pages.headD [] := by
  refine ⟨?_, ?_, ?_⟩ <;>
    cases pages <;>
      simp [listGroupsAll, listMembersAll, listAliasesOnce, loopCollect_eq]

/-! ## Concrete inputs used by the scenario theorems -/

/-- The remote directory holding exactly the groups `A` and `B`. -/
def rAB : Remote := ⟨["A", "B"], fun _ => [], fun _ => []⟩

/-- The remote directory holding exactly the group `B`. -/
def rB : Remote := ⟨["B"], fun _ => [], fun _ => []⟩

/-- Desired descriptor for group `B`. -/
def gB : GroupData := { name := "B", description := "list B", addresses := ["m1@x"] }

/-- Desired descriptor for group `C`. -/
def gC : GroupData := { name := "C", description := "list C", addresses := ["m2@x"] }

/-- Claim C1, behaviour of the code at the claim's own scenario: with existing
remote groups `{A, B}` and desired groups `{B, C}`, the pass updates `B` and
creates `C`, but (the converger iterating only over desired descriptors) it
never issues `delete("A")` — indeed no call of the pass addresses `A` at all,
and `A` stays in the remote group set. -/
theorem scenario_A_never_deleted :
    ((sync_mailinglists noFaults rAB [gB, gC]).1.all fun c =>
        !(match c with | Call.groupDelete _ => true | _ => false)) = true ∧
    ((sync_mailinglists noFaults rAB [gB, gC]).1.all fun c => !(c.targets "A")) = true ∧
    Call.groupInsert (atDomain "C") "C" "list C" ∈ (sync_mailinglists noFaults rAB [gB, gC]).1 ∧
    Call.aliasList (atDomain "B") ∈ (sync_mailinglists noFaults rAB [gB, gC]).1 ∧
    (sync_mailinglists noFaults rAB [gB, gC]).2.1.groups = ["A", "B", "C"] ∧
    (sync_mailinglists noFaults rAB [gB, gC]).2.2 = false := by decide

/-- Claim C7, behaviour of the code for a group present in both sets: the
trace of the whole pass over `B` holds no `groups().update` call at all —
the source builds the update request but never invokes `.execute()` on it —
while alias reconciliation still precedes member reconciliation. -/
theorem update_display_fields_never_sent :
    (sync_mailinglists noFaults rB [gB]).1 =
      [Call.groupsList, Call.aliasList (atDomain "B"), Call.membersList (atDomain "B"),
       Call.memberInsert (atDomain "B") "m1@x"] := by decide

/-- A fault assignment under which only the `groups().insert` call for the
key `C@…` raises `HttpError`. -/
def insertFailFaults : Faults := { groupInsertFails := fun k => k == atDomain "C" }

/-- Claim C2 counterexample: an `HttpError` raised by the `groups().insert`
call of `create_group` is not caught anywhere and propagates out of
`sync_mailinglists` — the routine raises to its caller. -/
theorem sync_raises_on_group_insert_failure :
    (sync_mailinglists insertFailFaults emptyRemote [gC]).2.2 = true := by decide

/-! ## Frame and shape lemmas about the converger -/

theorem umm_state (f : Faults) (r : Remote) (g : GroupData) :
    ((update_group_members f r g).2.groups = r.groups ∧
     (update_group_members f r g).2.aliasesOf = r.aliasesOf) ∧
    ∀ k, k ≠ atDomain g.name → (update_group_members f r g).2.membersOf k = r.membersOf k := by
  simp only [update_group_members]
  split <;> refine ⟨⟨rfl, rfl⟩, fun k hk => ?_⟩
  · rfl
  · simp [if_neg hk]

theorem uga_state (f : Faults) (r : Remote) (g : GroupData) :
    ((update_group_aliases f r g).2.1.groups = r.groups ∧
     (update_group_aliases f r g).2.1.membersOf = r.membersOf) ∧
    ∀ k, k ≠ atDomain g.name → (update_group_aliases f r g).2.1.aliasesOf k = r.aliasesOf k := by
  simp only [update_group_aliases]
  split <;> refine ⟨⟨rfl, rfl⟩, fun k hk => ?_⟩
  · rfl
  · simp [if_neg hk]

theorem uga_raised (f : Faults) (r : Remote) (g : GroupData) :
    (update_group_aliases f r g).2.2 = f.aliasListFails (atDomain g.name) := by
  simp only [update_group_aliases]
  split <;> simp_all

theorem ug_raised (f : Faults) (r : Remote) (old : String) (g : GroupData) :
    (update_group f r old g).2.2 = f.aliasListFails (atDomain g.name) := by
  simp only [update_group]
  split <;> simp_all [uga_raised]

theorem cg_raised (f : Faults) (r : Remote) (g : GroupData) :
    (create_group f r g).2.2 = f.groupInsertFails (atDomain g.name) := by
  simp only [create_group]
  split <;> simp_all

/-- Every call emitted by `update_group_members` carries the key of its own
group (or is the member listing for that key). -/
theorem umm_calls (f : Faults) (r : Remote) (g : GroupData) :
    ∀ c ∈ (update_group_members f r g).1,
      c = Call.membersList (atDomain g.name) ∨
      (∃ m, c = Call.memberDelete (atDomain g.name) m) ∨
      (∃ m, c = Call.memberInsert (atDomain g.name) m) := by
  intro c hc
  simp only [update_group_members] at hc
  split at hc
  · simp only [List.mem_singleton] at hc
    exact Or.inl hc
  · simp only [List.mem_cons, List.mem_append, List.mem_map] at hc
    rcases hc with rfl | ⟨m, _, rfl⟩ | ⟨m, _, rfl⟩
    · exact Or.inl rfl
    · exact Or.inr (Or.inl ⟨m, rfl⟩)
    · exact Or.inr (Or.inr ⟨m, rfl⟩)

/-- Every call emitted by `update_group_aliases` carries the key of its own
group. -/
theorem uga_calls (f : Faults) (r : Remote) (g : GroupData) :
    ∀ c ∈ (update_group_aliases f r g).1,
      c = Call.aliasList (atDomain g.name) ∨
      (∃ a, c = Call.aliasDelete (atDomain g.name) a) ∨
      (∃ a, c = Call.aliasInsert (atDomain g.name) a) := by
  intro c hc
  simp only [update_group_aliases] at hc
  split at hc
  · simp only [List.mem_singleton] at hc
    exact Or.inl hc
  · simp only [List.mem_cons, List.mem_append, List.mem_map] at hc
    rcases hc with rfl | ⟨a, _, rfl⟩ | ⟨a, _, rfl⟩
    · exact Or.inl rfl
    · exact Or.inr (Or.inl ⟨a, rfl⟩)
    · exact Or.inr (Or.inr ⟨a, rfl⟩)

/-- A call emitted for the group `g` addresses `n` only when `n` is `g`'s own
name, and is never a group deletion: shape of `update_group`'s trace. -/
theorem ug_calls (f : Faults) (r : Remote) (old : String) (g : GroupData) :
    ∀ c ∈ (update_group f r old g).1,
      (∀ n, c.targets n = true → n = g.name) ∧ (∀ k, c ≠ Call.groupDelete k) := by
  intro c hc
  simp only [update_group] at hc
  have hshape : c = Call.aliasList (atDomain g.name) ∨
      (∃ a, c = Call.aliasDelete (atDomain g.name) a) ∨
      (∃ a, c = Call.aliasInsert (atDomain g.name) a) ∨
      c = Call.membersList (atDomain g.name) ∨
      (∃ m, c = Call.memberDelete (atDomain g.name) m) ∨
      (∃ m, c = Call.memberInsert (atDomain g.name) m) := by
    split at hc
    · rcases uga_calls f r g c hc with h | ⟨a, h⟩ | ⟨a, h⟩
      · exact Or.inl h
      · exact Or.inr (Or.inl ⟨a, h⟩)
      · exact Or.inr (Or.inr (Or.inl ⟨a, h⟩))
    · simp only [List.mem_append] at hc
      rcases hc with hc | hc
      · rcases uga_calls f r g c hc with h | ⟨a, h⟩ | ⟨a, h⟩
        · exact Or.inl h
        · exact Or.inr (Or.inl ⟨a, h⟩)
        · exact Or.inr (Or.inr (Or.inl ⟨a, h⟩))
      · rcases umm_calls f _ g c hc with h | ⟨m, h⟩ | ⟨m, h⟩
        · exact Or.inr (Or.inr (Or.inr (Or.inl h)))
        · exact Or.inr (Or.inr (Or.inr (Or.inr (Or.inl ⟨m, h⟩))))
        · exact Or.inr (Or.inr (Or.inr (Or.inr (Or.inr ⟨m, h⟩))))
  constructor
  · intro n hn
    rcases hshape with rfl | ⟨a, rfl⟩ | ⟨a, rfl⟩ | rfl | ⟨m, rfl⟩ | ⟨m, rfl⟩ <;>
      · simp only [Call.targets, beq_iff_eq] at hn
        exact (atDomain_inj hn).symm
  · intro k
    rcases hshape with rfl | ⟨a, rfl⟩ | ⟨a, rfl⟩ | rfl | ⟨m, rfl⟩ | ⟨m, rfl⟩ <;> simp

/-- Shape of `create_group`'s trace: the insert and settling sleep, then
member calls, all for `g`'s own key. -/
theorem cg_calls (f : Faults) (r : Remote) (g : GroupData) :
    ∀ c ∈ (create_group f r g).1,
      (∀ n, c.targets n = true → n = g.name) ∧ (∀ k, c ≠ Call.groupDelete k) := by
  intro c hc
  simp only [create_group] at hc
  have hshape : c = Call.groupInsert (atDomain g.name) g.name g.description ∨
      c = Call.sleepCall ∨
      c = Call.membersList (atDomain g.name) ∨
      (∃ m, c = Call.memberDelete (atDomain g.name) m) ∨
      (∃ m, c = Call.memberInsert (atDomain g.name) m) := by
    split at hc
    · simp only [List.mem_singleton] at hc
      exact Or.inl hc
    · simp only [List.mem_cons] at hc
      rcases hc with rfl | rfl | hc
      · exact Or.inl rfl
      · exact Or.inr (Or.inl rfl)
      · rcases umm_calls f _ g c hc with h | ⟨m, h⟩ | ⟨m, h⟩
        · exact Or.inr (Or.inr (Or.inl h))
        · exact Or.inr (Or.inr (Or.inr (Or.inl ⟨m, h⟩)))
        · exact Or.inr (Or.inr (Or.inr (Or.inr ⟨m, h⟩)))
  constructor
  · intro n hn
    rcases hshape with rfl | rfl | rfl | ⟨m, rfl⟩ | ⟨m, rfl⟩
    · simp only [Call.targets, Bool.or_eq_true, beq_iff_eq] at hn
      rcases hn with hn | hn
      · exact (atDomain_inj hn).symm
      · exact hn.symm
    · simp [Call.targets] at hn
    all_goals
      simp only [Call.targets, beq_iff_eq] at hn
      exact (atDomain_inj hn).symm
  · intro k
    rcases hshape with rfl | rfl | rfl | ⟨m, rfl⟩ | ⟨m, rfl⟩ <;> simp

/-- In `sync_mailinglists`, a desired descriptor's name can never be in the
remove list, so the `delete_group` branch is unreachable. -/
theorem name_not_in_remove_list (E : List String) {names : List String} {n : String}
    (hn : n ∈ names) : n ∉ remove_list E names := by
  intro h
  exact (mem_remove_list.mp h).2 hn

/-- Shape of one converger-loop iteration, given that the descriptor's name
avoids the remove list (as it always does in `sync_mailinglists`). -/
theorem syncStep_calls (f : Faults) (rem ins : List String) (r : Remote) (l : GroupData)
    (hnd : l.name ∉ rem) :
    ∀ c ∈ (syncStep f rem ins r l).1,
      (∀ n, c.targets n = true → n = l.name) ∧ (∀ k, c ≠ Call.groupDelete k) := by
  unfold syncStep
  rw [if_neg hnd]
  split
  · exact cg_calls f r l
  · exact ug_calls f r l.name l

/-- Every call of the converger loop belongs to some desired descriptor. -/
theorem syncLoop_calls (f : Faults) (rem ins : List String) :
    ∀ (ls : List GroupData) (r : Remote), (∀ l ∈ ls, l.name ∉ rem) →
      ∀ c ∈ (syncLoop f rem ins r ls).1,
        ∃ l ∈ ls, (∀ n, c.targets n = true → n = l.name) ∧ (∀ k, c ≠ Call.groupDelete k) := by
  intro ls
  induction ls with
  | nil => intro r _ c hc; simp [syncLoop] at hc
  | cons l ls ih =>
      intro r hnd c hc
      have hstep := syncStep_calls f rem ins r l (hnd l (List.mem_cons_self l ls))
      simp only [syncLoop] at hc
      split at hc
      · exact ⟨l, List.mem_cons_self l ls, hstep c hc⟩
      · simp only [List.mem_append] at hc
        rcases hc with hc | hc
        · exact ⟨l, List.mem_cons_self l ls, hstep c hc⟩
        · obtain ⟨l', hl', hc'⟩ := ih _ (fun x hx => hnd x (List.mem_cons_of_mem l hx)) c hc
          exact ⟨l', List.mem_cons_of_mem l hl', hc'⟩

/-- Claim C10: `sync_mailinglists` never issues a remote group-delete call —
the converger iterates only over desired descriptors, whose names cannot be
in the remove list — and a group name absent from the desired set is
addressed by no call of the pass at all. -/
theorem sync_never_deletes (f : Faults) (r : Remote) (lists : List GroupData) :
    (∀ c ∈ (sync_mailinglists f r lists).1, ∀ k, c ≠ Call.groupDelete k) ∧
    (∀ n, n ∉ lists.map GroupData.name →
      ∀ c ∈ (sync_mailinglists f r lists).1, c.targets n = false) := by
  have hmain : ∀ c ∈ (sync_mailinglists f r lists).1,
      c = Call.groupsList ∨
      ∃ l ∈ lists, (∀ n, c.targets n = true → n = l.name) ∧ (∀ k, c ≠ Call.groupDelete k) := by
    intro c hc
    simp only [sync_mailinglists] at hc
    split at hc
    · simp only [List.mem_singleton] at hc
      exact Or.inl hc
    · simp only [List.mem_cons] at hc
      rcases hc with rfl | hc
      · exact Or.inl rfl
      · exact Or.inr (syncLoop_calls f _ _ lists r
          (fun l hl => name_not_in_remove_list r.groups (List.mem_map_of_mem GroupData.name hl))
          c hc)
  constructor
  · intro c hc k
    rcases hmain c hc with rfl | ⟨l, _, _, hnd⟩
    · simp
    · exact hnd k
  · intro n hn c hc
    rcases hmain c hc with rfl | ⟨l, hl, htg, _⟩
    · rfl
    · by_contra hne
      have : c.targets n = true := by
        cases h : c.targets n
        · exact absurd h hne
        · rfl
      exact hn ((htg n this) ▸ List.mem_map_of_mem GroupData.name hl)

/-- Witness for C10 at the `{A,B}` / `{B,C}` scenario: the pass's first call
exists and does not address the undesired group `A`. -/
theorem sync_never_deletes_witness :
    Call.groupsList ∈ (sync_mailinglists noFaults rAB [gB, gC]).1 ∧
    (Call.groupsList).targets "A" = false :=
  ⟨by decide,
   (sync_never_deletes noFaults rAB [gB, gC]).2 "A" (by decide) Call.groupsList (by decide)⟩

/-! ## Raise behaviour of the converger -/

theorem syncStep_not_raised (f : Faults) (rem ins : List String) (r : Remote) (l : GroupData)
    (hnd : l.name ∉ rem)
    (hIns : f.groupInsertFails (atDomain l.name) = false)
    (hAl : f.aliasListFails (atDomain l.name) = false) :
    (syncStep f rem ins r l).2.2 = false := by
  simp only [syncStep]
  rw [if_neg hnd]
  split
  · rw [cg_raised]; exact hIns
  · rw [ug_raised]; exact hAl

theorem syncLoop_not_raised (f : Faults) (rem ins : List String) :
    ∀ (ls : List GroupData) (r : Remote),
      (∀ l ∈ ls, l.name ∉ rem) →
      (∀ l ∈ ls, f.groupInsertFails (atDomain l.name) = false) →
      (∀ l ∈ ls, f.aliasListFails (atDomain l.name) = false) →
      (syncLoop f rem ins r ls).2.2 = false := by
  intro ls
  induction ls with
  | nil => intro r _ _ _; rfl
  | cons l ls ih =>
      intro r h1 h2 h3
      have hstep := syncStep_not_raised f rem ins r l (h1 l (List.mem_cons_self l ls))
        (h2 l (List.mem_cons_self l ls)) (h3 l (List.mem_cons_self l ls))
      simp only [syncLoop]
      rw [hstep]
      simp only [Bool.false_eq_true, if_false]
      exact ih _ (fun x hx => h1 x (List.mem_cons_of_mem l hx))
        (fun x hx => h2 x (List.mem_cons_of_mem l hx))
        (fun x hx => h3 x (List.mem_cons_of_mem l hx))

/-- Claim C2 (amended): the sync routine absorbs transport-level failures of
the group listing, of each member listing, and of every individual
alias/member insert/delete call — under any pattern of those faults it never
raises; but a failure of the uncaught `groups().insert` call (create path) or
of the uncaught alias listing (update path) propagates to the caller, so the
hypotheses below exclude exactly those two fault kinds. -/
theorem sync_never_raises_amended (f : Faults) (r : Remote) (lists : List GroupData)
    (hIns : ∀ k, f.groupInsertFails k = false)
    (hAl : ∀ k, f.aliasListFails k = false) :
    (sync_mailinglists f r lists).2.2 = false := by
  simp only [sync_mailinglists]
  split
  · rfl
  · exact syncLoop_not_raised f _ _ lists r
      (fun l hl => name_not_in_remove_list r.groups (List.mem_map_of_mem GroupData.name hl))
      (fun l _ => hIns _) (fun l _ => hAl _)

/-- A fault assignment failing every call kind that the code catches. -/
def absorbedFaults : Faults :=
  { memberListFails := fun _ => true, memberDeleteFails := fun _ _ => true,
    memberInsertFails := fun _ _ => true, aliasDeleteFails := fun _ _ => true,
    aliasInsertFails := fun _ _ => true }

/-- Witness for the amended C2: with every caught call kind failing, the pass
over the `{A,B}` remote still returns without raising. -/
theorem sync_never_raises_amended_witness :
    (sync_mailinglists absorbedFaults rAB [gB, gC]).2.2 = false :=
  sync_never_raises_amended absorbedFaults rAB [gB, gC] (fun _ => rfl) (fun _ => rfl)

/-! ## Branch resolution of the converger loop -/

theorem syncStep_create (f : Faults) {E names : List String} (r : Remote) (l : GroupData)
    (hl : l.name ∈ names) (hE : l.name ∉ E) :
    syncStep f (remove_list E names) (insert_list E names) r l = create_group f r l := by
  simp only [syncStep]
  rw [if_neg (name_not_in_remove_list E hl), if_pos (mem_insert_list.mpr ⟨hl, hE⟩)]

theorem syncStep_update (f : Faults) {E names : List String} (r : Remote) (l : GroupData)
    (hl : l.name ∈ names) (hE : l.name ∈ E) :
    syncStep f (remove_list E names) (insert_list E names) r l = update_group f r l.name l := by
  simp only [syncStep]
  rw [if_neg (name_not_in_remove_list E hl),
      if_neg (fun h => (mem_insert_list.mp h).2 hE)]

theorem insert_list_nil (d : List String) : insert_list [] d = d := by
  simp [insert_list]

/-- Claim C8: for a group whose name is desired but absent remotely, the
converger takes the create branch; `create_group` inserts the remote group,
sleeps the settling delay, lists the fresh group's (empty) members, and then
issues exactly one member-insert call per desired address and no
member-delete call, without raising. -/
theorem create_populates_members (f : Faults) (r rmid : Remote) (g : GroupData)
    (names : List String)
    (hIns : f.groupInsertFails (atDomain g.name) = false)
    (hML : f.memberListFails (atDomain g.name) = false)
    (hnm : g.name ∈ names) (hex : g.name ∉ r.groups) :
    syncStep f (remove_list r.groups names) (insert_list r.groups names) rmid g =
      create_group f rmid g ∧
    (create_group f rmid g).1 =
      Call.groupInsert (atDomain g.name) g.name g.description :: Call.sleepCall ::
        Call.membersList (atDomain g.name) ::
        g.addresses.map (Call.memberInsert (atDomain g.name)) ∧
    (create_group f rmid g).2.2 = false := by
  refine ⟨syncStep_create f rmid g hnm hex, ?_, by rw [cg_raised]; exact hIns⟩
  simp only [create_group]
  rw [if_neg (by rw [hIns]; exact Bool.false_ne_true)]
  simp only [update_group_members]
  rw [if_neg (by rw [hML]; exact Bool.false_ne_true)]
  simp [remove_list, insert_list_nil]

/-- Witness for C8: creating `C` on the `{A,B}` remote issues exactly the
insert, the sleep, the member listing and one member-insert for `C`'s single
desired address. -/
theorem create_populates_members_witness :
    (create_group noFaults rAB gC).1 =
      Call.groupInsert (atDomain "C") "C" "list C" :: Call.sleepCall ::
        Call.membersList (atDomain "C") ::
        [Call.memberInsert (atDomain "C") "m2@x"] ∧
    (create_group noFaults rAB gC).2.2 = false :=
  ⟨((create_populates_members noFaults rAB rAB gC ["B", "C"] rfl rfl (by decide)
      (by decide)).2.1),
   ((create_populates_members noFaults rAB rAB gC ["B", "C"] rfl rfl (by decide)
      (by decide)).2.2)⟩

/-! ## Lemmas for fault isolation (claim C5) -/

theorem uga_first_call (f : Faults) (r : Remote) (g : GroupData) :
    Call.aliasList (atDomain g.name) ∈ (update_group_aliases f r g).1 := by
  simp only [update_group_aliases]
  split <;> exact List.mem_cons_self _ _

theorem update_group_first_call (f : Faults) (r : Remote) (old : String) (g : GroupData) :
    Call.aliasList (atDomain g.name) ∈ (update_group f r old g).1 := by
  simp only [update_group]
  split
  · exact uga_first_call f r g
  · exact List.mem_append_left _ (uga_first_call f r g)

theorem create_group_first_call (f : Faults) (r : Remote) (g : GroupData) :
    Call.groupInsert (atDomain g.name) g.name g.description ∈ (create_group f r g).1 := by
  simp only [create_group]
  split
  · exact List.mem_cons_self _ _
  · exact List.mem_cons_self _ _

/-- A call that the step of a desired descriptor emits from every state is in
the loop's trace, provided no earlier step raises. -/
theorem syncLoop_mem_call (f : Faults) (rem ins : List String) :
    ∀ (ls : List GroupData) (r : Remote),
      (∀ l ∈ ls, l.name ∉ rem) →
      (∀ l ∈ ls, f.groupInsertFails (atDomain l.name) = false) →
      (∀ l ∈ ls, f.aliasListFails (atDomain l.name) = false) →
      ∀ h ∈ ls, ∀ c : Call, (∀ r0 : Remote, c ∈ (syncStep f rem ins r0 h).1) →
        c ∈ (syncLoop f rem ins r ls).1 := by
  intro ls
  induction ls with
  | nil => intro r _ _ _ h hh; exact absurd hh (List.not_mem_nil h)
  | cons l ls ih =>
      intro r h1 h2 h3 h hh c hc
      have hstep := syncStep_not_raised f rem ins r l (h1 l (List.mem_cons_self l ls))
        (h2 l (List.mem_cons_self l ls)) (h3 l (List.mem_cons_self l ls))
      simp only [syncLoop]
      rw [hstep]
      simp only [Bool.false_eq_true, if_false]
      rcases List.mem_cons.mp hh with rfl | hh'
      · exact List.mem_append_left _ (hc r)
      · exact List.mem_append_right _
          (ih _ (fun x hx => h1 x (List.mem_cons_of_mem l hx))
            (fun x hx => h2 x (List.mem_cons_of_mem l hx))
            (fun x hx => h3 x (List.mem_cons_of_mem l hx)) h hh' c hc)

theorem cg_membersOf (f : Faults) (r : Remote) (g : GroupData) (K : String)
    (hK : K ≠ atDomain g.name) :
    (create_group f r g).2.1.membersOf K = r.membersOf K := by
  simp only [create_group]
  split
  · rfl
  · rw [(umm_state f _ g).2 K hK]
    simp [if_neg hK]

theorem ug_membersOf (f : Faults) (r : Remote) (old : String) (g : GroupData) (K : String)
    (hK : K ≠ atDomain g.name) :
    (update_group f r old g).2.1.membersOf K = r.membersOf K := by
  simp only [update_group]
  split
  · exact congrFun (uga_state f r g).1.2 K
  · rw [(umm_state f _ g).2 K hK]
    exact congrFun (uga_state f r g).1.2 K

theorem syncStep_membersOf (f : Faults) (rem ins : List String) (r : Remote) (l : GroupData)
    (K : String) (hnd : l.name ∉ rem) (hK : K ≠ atDomain l.name) :
    (syncStep f rem ins r l).2.1.membersOf K = r.membersOf K := by
  simp only [syncStep]
  rw [if_neg hnd]
  split
  · exact cg_membersOf f r l K hK
  · exact ug_membersOf f r l.name l K hK

/-- When the member listing for `g` fails, `update_group` leaves the whole
member state untouched (the alias stage never writes members, the member
stage returns before writing anything). -/
theorem update_group_membersOf_mlfail (f : Faults) (r : Remote) (old : String) (g : GroupData)
    (hml : f.memberListFails (atDomain g.name) = true) :
    (update_group f r old g).2.1.membersOf = r.membersOf := by
  simp only [update_group]
  split
  · exact (uga_state f r g).1.2
  · simp only [update_group_members, hml, if_true]
    exact (uga_state f r g).1.2

theorem syncLoop_preserves_membersOf (f : Faults) (rem ins : List String) (K : String) :
    ∀ (ls : List GroupData) (r : Remote),
      (∀ l ∈ ls, ∀ r0 : Remote, (syncStep f rem ins r0 l).2.1.membersOf K = r0.membersOf K) →
      (syncLoop f rem ins r ls).2.1.membersOf K = r.membersOf K := by
  intro ls
  induction ls with
  | nil => intro r _; rfl
  | cons l ls ih =>
      intro r hp
      simp only [syncLoop]
      split
      · exact hp l (List.mem_cons_self l ls) r
      · rw [ih _ (fun x hx => hp x (List.mem_cons_of_mem l hx))]
        exact hp l (List.mem_cons_self l ls) r

/-- Every call of the converger loop is emitted by the step of some desired
descriptor, run from some intermediate state. -/
theorem syncLoop_calls_states (f : Faults) (rem ins : List String) :
    ∀ (ls : List GroupData) (r : Remote), ∀ c ∈ (syncLoop f rem ins r ls).1,
      ∃ l ∈ ls, ∃ r0 : Remote, c ∈ (syncStep f rem ins r0 l).1 := by
  intro ls
  induction ls with
  | nil => intro r c hc; exact absurd hc (List.not_mem_nil c)
  | cons l ls ih =>
      intro r c hc
      simp only [syncLoop] at hc
      split at hc
      · exact ⟨l, List.mem_cons_self l ls, r, hc⟩
      · rcases List.mem_append.mp hc with hc | hc
        · exact ⟨l, List.mem_cons_self l ls, r, hc⟩
        · obtain ⟨l', hl', r0, hc'⟩ := ih _ c hc
          exact ⟨l', List.mem_cons_of_mem l hl', r0, hc'⟩

/-- With the member listing for `g` failing, `update_group` emits no member
delete or insert call at all. -/
theorem ug_mlfail_no_member_mutation (f : Faults) (r : Remote) (old : String) (g : GroupData)
    (hml : f.memberListFails (atDomain g.name) = true) :
    ∀ c ∈ (update_group f r old g).1, ∀ K m,
      c ≠ Call.memberDelete K m ∧ c ≠ Call.memberInsert K m := by
  intro c hc K m
  have halias : ∀ c' ∈ (update_group_aliases f r g).1, ∀ K' m',
      c' ≠ Call.memberDelete K' m' ∧ c' ≠ Call.memberInsert K' m' := by
    intro c' hc' K' m'
    rcases uga_calls f r g c' hc' with rfl | ⟨a, rfl⟩ | ⟨a, rfl⟩ <;> exact ⟨by simp, by simp⟩
  simp only [update_group] at hc
  split at hc
  · exact halias c hc K m
  · rcases List.mem_append.mp hc with hc | hc
    · exact halias c hc K m
    · simp [update_group_members, hml] at hc
      subst hc
      exact ⟨by simp, by simp⟩

/-- Claim C5: if listing one group's members fails, only that group's member
synchronization is skipped — no member insert/delete is issued for it and its
remote membership is unchanged — while that group's alias reconciliation
still happens and every other group is still processed (its alias
reconciliation begins if it exists remotely, its group insertion is issued if
not).  Group names are assumed unique, the sync-meaningfulness invariant. -/
theorem member_list_failure_isolated (f : Faults) (r : Remote)
    (pre post : List GroupData) (g : GroupData)
    (hGL : f.groupsListFails = false)
    (hIns : ∀ k, f.groupInsertFails k = false)
    (hAl : ∀ k, f.aliasListFails k = false)
    (hml : f.memberListFails (atDomain g.name) = true)
    (hg : g.name ∈ r.groups)
    (hnodup : ((pre ++ g :: post).map GroupData.name).Nodup) :
    (sync_mailinglists f r (pre ++ g :: post)).2.2 = false ∧
    (∀ c ∈ (sync_mailinglists f r (pre ++ g :: post)).1, ∀ m,
      c ≠ Call.memberDelete (atDomain g.name) m ∧
      c ≠ Call.memberInsert (atDomain g.name) m) ∧
    (sync_mailinglists f r (pre ++ g :: post)).2.1.membersOf (atDomain g.name) =
      r.membersOf (atDomain g.name) ∧
    Call.aliasList (atDomain g.name) ∈ (sync_mailinglists f r (pre ++ g :: post)).1 ∧
    (∀ h ∈ pre ++ post,
      (h.name ∈ r.groups →
        Call.aliasList (atDomain h.name) ∈ (sync_mailinglists f r (pre ++ g :: post)).1) ∧
      (h.name ∉ r.groups →
        Call.groupInsert (atDomain h.name) h.name h.description ∈
          (sync_mailinglists f r (pre ++ g :: post)).1)) := by
  have hgL : g ∈ pre ++ g :: post := List.mem_append_right pre (List.mem_cons_self g post)
  have hgname : g.name ∈ (pre ++ g :: post).map GroupData.name :=
    List.mem_map_of_mem GroupData.name hgL
  have hnd : ∀ l ∈ pre ++ g :: post,
      l.name ∉ remove_list r.groups ((pre ++ g :: post).map GroupData.name) :=
    fun l hl => name_not_in_remove_list r.groups (List.mem_map_of_mem GroupData.name hl)
  have hInsL : ∀ l ∈ pre ++ g :: post, f.groupInsertFails (atDomain l.name) = false :=
    fun l _ => hIns _
  have hAlL : ∀ l ∈ pre ++ g :: post, f.aliasListFails (atDomain l.name) = false :=
    fun l _ => hAl _
  have huniq : ∀ l ∈ pre ++ g :: post, l.name = g.name → l = g := by
    intro l hl hname
    exact List.inj_on_of_nodup_map hnodup hl hgL hname
  refine ⟨?_, ?_, ?_, ?_, ?_⟩
  · simp only [sync_mailinglists, hGL, Bool.false_eq_true, if_false]
    exact syncLoop_not_raised f _ _ _ r hnd hInsL hAlL
  · simp only [sync_mailinglists, hGL, Bool.false_eq_true, if_false]
    intro c hc m
    rcases List.mem_cons.mp hc with rfl | hc
    · exact ⟨by simp, by simp⟩
    · obtain ⟨l, hl, r0, hc'⟩ := syncLoop_calls_states f _ _ _ r c hc
      by_cases hname : l.name = g.name
      · have := huniq l hl hname
        subst this
        rw [syncStep_update f r0 l hgname hg] at hc'
        exact ug_mlfail_no_member_mutation f r0 l.name l hml c hc' _ m
      · have htg := (syncStep_calls f _ _ r0 l (hnd l hl) c hc').1
        constructor
        · intro heq
          subst heq
          exact hname ((htg g.name (by simp [Call.targets])).symm)
        · intro heq
          subst heq
          exact hname ((htg g.name (by simp [Call.targets])).symm)
  · simp only [sync_mailinglists, hGL, Bool.false_eq_true, if_false]
    apply syncLoop_preserves_membersOf
    intro l hl r0
    by_cases hname : l.name = g.name
    · have := huniq l hl hname
      subst this
      rw [syncStep_update f r0 l hgname hg]
      exact congrFun (update_group_membersOf_mlfail f r0 l.name l hml) _
    · exact syncStep_membersOf f _ _ r0 l _ (hnd l hl)
        (fun h => hname (atDomain_inj h.symm))
  · simp only [sync_mailinglists, hGL, Bool.false_eq_true, if_false]
    apply List.mem_cons_of_mem
    apply syncLoop_mem_call f _ _ _ r hnd hInsL hAlL g hgL
    intro r0
    rw [syncStep_update f r0 g hgname hg]
    exact update_group_first_call f r0 g.name g
  · intro h hh
    have hhL : h ∈ pre ++ g :: post := by
      rcases List.mem_append.mp hh with hh | hh
      · exact List.mem_append_left _ hh
      · exact List.mem_append_right _ (List.mem_cons_of_mem g hh)
    have hhname : h.name ∈ (pre ++ g :: post).map GroupData.name :=
      List.mem_map_of_mem GroupData.name hhL
    constructor
    · intro hex
      simp only [sync_mailinglists, hGL, Bool.false_eq_true, if_false]
      apply List.mem_cons_of_mem
      apply syncLoop_mem_call f _ _ _ r hnd hInsL hAlL h hhL
      intro r0
      rw [syncStep_update f r0 h hhname hex]
      exact update_group_first_call f r0 h.name h
    · intro hex
      simp only [sync_mailinglists, hGL, Bool.false_eq_true, if_false]
      apply List.mem_cons_of_mem
      apply syncLoop_mem_call f _ _ _ r hnd hInsL hAlL h hhL
      intro r0
      rw [syncStep_create f r0 h hhname hex]
      exact create_group_first_call f r0 h

/-- A fault assignment under which only the member listing for `B@…` fails. -/
def mlFailB : Faults := { memberListFails := fun k => k == atDomain "B" }

/-- Witness for C5: with `B`'s member listing failing on the `{A,B}` remote,
the pass still returns normally, still reconciles `B`'s aliases, and still
creates the other desired group `C`. -/
theorem member_list_failure_isolated_witness :
    (sync_mailinglists mlFailB rAB [gB, gC]).2.2 = false ∧
    Call.aliasList (atDomain "B") ∈ (sync_mailinglists mlFailB rAB [gB, gC]).1 ∧
    Call.groupInsert (atDomain "C") "C" "list C" ∈ (sync_mailinglists mlFailB rAB [gB, gC]).1 := by
  have h := member_list_failure_isolated mlFailB rAB [] [gC] gB rfl (fun _ => rfl)
    (fun _ => rfl) (by decide) (by decide) (by decide)
  exact ⟨h.1, h.2.2.2.1, (h.2.2.2.2 gC (by decide)).2 (by decide)⟩

/-! ## Idempotence (claim C9) -/

/-- Desired descriptor for a fresh group `c` carrying one alias. -/
def gCAlias : GroupData := { name := "c", description := "list c", aliases := ["x"] }

/-- Claim C9 counterexample: a first pass on the empty remote creates `c`
(fully succeeding: no fault, no raise) and — `create_group` never reconciling
aliases — issues no alias insert; an immediately following second pass then
issues the alias-insert call for `c`'s alias, so the second pass performs a
nonzero number of add calls. -/
theorem second_pass_inserts_alias_of_created_group :
    (sync_mailinglists noFaults emptyRemote [gCAlias]).2.2 = false ∧
    Call.aliasInsert (atDomain "c") (atDomain "x") ∉
      (sync_mailinglists noFaults emptyRemote [gCAlias]).1 ∧
    Call.aliasInsert (atDomain "c") (atDomain "x") ∈
      (sync_mailinglists noFaults
        (sync_mailinglists noFaults emptyRemote [gCAlias]).2.1 [gCAlias]).1 := by decide

theorem nf_ml (k : String) : noFaults.memberListFails k = false := rfl

theorem nf_al (k : String) : noFaults.aliasListFails k = false := rfl

theorem nf_gi (k : String) : noFaults.groupInsertFails k = false := rfl

theorem nf_md (k : String) : noFaults.memberDeleteFails k = fun _ => false := rfl

theorem nf_mi (k : String) : noFaults.memberInsertFails k = fun _ => false := rfl

theorem nf_ad (k : String) : noFaults.aliasDeleteFails k = fun _ => false := rfl

theorem nf_ai (k : String) : noFaults.aliasInsertFails k = fun _ => false := rfl

theorem remove_list_eq_nil {E D : List String} (h : ∀ x ∈ E, x ∈ D) :
    remove_list E D = [] := by
  simp only [remove_list, List.filter_eq_nil_iff]
  intro a ha
  simp [h a ha]

theorem insert_list_eq_nil {E D : List String} (h : ∀ x ∈ D, x ∈ E) :
    insert_list E D = [] := by
  simp only [insert_list, List.filter_eq_nil_iff]
  intro a ha
  simp [h a ha]

/-- Fault-free member reconciliation converges: afterwards the group's remote
membership is, as a set, exactly the desired address list. -/
theorem umm_converges (r : Remote) (g : GroupData) (x : String) :
    x ∈ (update_group_members noFaults r g).2.membersOf (atDomain g.name) ↔
      x ∈ g.addresses := by
  simp only [update_group_members, nf_ml, Bool.false_eq_true, if_false, nf_md, nf_mi]
  simp only [Remote.mk.injEq, eq_self_iff_true, if_true]
  rw [mem_applyInserts_ff, mem_applyRemovals_ff]
  simp only [mem_remove_list, mem_insert_list]
  tauto

/-- Fault-free alias reconciliation converges likewise. -/
theorem uga_converges (r : Remote) (g : GroupData) (x : String) :
    x ∈ (update_group_aliases noFaults r g).2.1.aliasesOf (atDomain g.name) ↔
      x ∈ g.aliases.map atDomain := by
  simp only [update_group_aliases, nf_al, Bool.false_eq_true, if_false, nf_ad, nf_ai]
  simp only [Remote.mk.injEq, eq_self_iff_true, if_true]
  rw [mem_applyInserts_ff, mem_applyRemovals_ff]
  simp only [mem_remove_list, mem_insert_list]
  tauto

/-- Fault-free `update_group` leaves the group list unchanged and converges
both the group's members and its aliases. -/
theorem ug_converges (r : Remote) (g : GroupData) :
    (update_group noFaults r g.name g).2.1.groups = r.groups ∧
    (∀ x, x ∈ (update_group noFaults r g.name g).2.1.membersOf (atDomain g.name) ↔
      x ∈ g.addresses) ∧
    (∀ x, x ∈ (update_group noFaults r g.name g).2.1.aliasesOf (atDomain g.name) ↔
      x ∈ g.aliases.map atDomain) := by
  have hr : (update_group_aliases noFaults r g).2.2 = false := by
    rw [uga_raised]; exact nf_al _
  simp only [update_group, hr, Bool.false_eq_true, if_false]
  refine ⟨?_, ?_, ?_⟩
  · rw [(umm_state noFaults _ g).1.1, (uga_state noFaults r g).1.1]
  · intro x
    exact umm_converges _ g x
  · intro x
    rw [congrFun (umm_state noFaults _ g).1.2 (atDomain g.name)]
    exact uga_converges r g x

/-- Fault-free `create_group` appends the new group name, converges its
members against the fresh empty remote membership, and leaves its remote
alias set empty (aliases are never reconciled on the create path). -/
theorem cg_converges (r : Remote) (g : GroupData) :
    (create_group noFaults r g).2.1.groups = r.groups ++ [g.name] ∧
    (∀ x, x ∈ (create_group noFaults r g).2.1.membersOf (atDomain g.name) ↔
      x ∈ g.addresses) ∧
    (create_group noFaults r g).2.1.aliasesOf (atDomain g.name) = [] := by
  simp only [create_group, nf_gi, Bool.false_eq_true, if_false]
  refine ⟨?_, ?_, ?_⟩
  · rw [(umm_state noFaults _ g).1.1]
  · intro x
    exact umm_converges _ g x
  · rw [congrFun (umm_state noFaults _ g).1.2 (atDomain g.name)]
    simp [if_pos rfl]

theorem cg_aliasesOf (f : Faults) (r : Remote) (g : GroupData) (K : String)
    (hK : K ≠ atDomain g.name) :
    (create_group f r g).2.1.aliasesOf K = r.aliasesOf K := by
  simp only [create_group]
  split
  · rfl
  · rw [congrFun (umm_state f _ g).1.2 K]
    simp [if_neg hK]

theorem ug_aliasesOf (f : Faults) (r : Remote) (old : String) (g : GroupData) (K : String)
    (hK : K ≠ atDomain g.name) :
    (update_group f r old g).2.1.aliasesOf K = r.aliasesOf K := by
  simp only [update_group]
  split
  · exact (uga_state f r g).2 K hK
  · rw [congrFun (umm_state f _ g).1.2 K]
    exact (uga_state f r g).2 K hK

theorem syncStep_aliasesOf (f : Faults) (rem ins : List String) (r : Remote) (l : GroupData)
    (K : String) (hnd : l.name ∉ rem) (hK : K ≠ atDomain l.name) :
    (syncStep f rem ins r l).2.1.aliasesOf K = r.aliasesOf K := by
  simp only [syncStep]
  rw [if_neg hnd]
  split
  · exact cg_aliasesOf f r l K hK
  · exact ug_aliasesOf f r l.name l K hK

/-- No reachable converger branch ever removes a name from the remote group
list. -/
theorem syncStep_groups_mono (f : Faults) (rem ins : List String) (r : Remote)
    (l : GroupData) (n : String) (hnd : l.name ∉ rem) (hn : n ∈ r.groups) :
    n ∈ (syncStep f rem ins r l).2.1.groups := by
  simp only [syncStep]
  rw [if_neg hnd]
  split
  · simp only [create_group]
    split
    · exact hn
    · rw [(umm_state f _ l).1.1]
      exact List.mem_append_left _ hn
  · simp only [update_group]
    split
    · rw [(uga_state f r l).1.1]
      exact hn
    · rw [(umm_state f _ l).1.1, (uga_state f r l).1.1]
      exact hn

/-- The per-group postcondition of a fully successful pass: the group exists
remotely, and its remote members and aliases are, as sets, the desired ones. -/
def Converged (r : Remote) (g : GroupData) : Prop :=
  g.name ∈ r.groups ∧
  (∀ x, x ∈ r.membersOf (atDomain g.name) ↔ x ∈ g.addresses) ∧
  (∀ x, x ∈ r.aliasesOf (atDomain g.name) ↔ x ∈ g.aliases.map atDomain)

theorem syncStep_preserves_converged (rem ins : List String) (r : Remote)
    (l h : GroupData) (hnd : l.name ∉ rem) (hne : l.name ≠ h.name) :
    Converged r h → Converged (syncStep noFaults rem ins r l).2.1 h := by
  rintro ⟨h1, h2, h3⟩
  have hK : atDomain h.name ≠ atDomain l.name := fun he => hne (atDomain_inj he).symm
  refine ⟨syncStep_groups_mono noFaults rem ins r l h.name hnd h1, ?_, ?_⟩
  · rw [syncStep_membersOf noFaults rem ins r l _ hnd hK]
    exact h2
  · rw [syncStep_aliasesOf noFaults rem ins r l _ hnd hK]
    exact h3

theorem syncLoop_preserves_converged (rem ins : List String) :
    ∀ (ls : List GroupData) (r : Remote) (h : GroupData),
      (∀ l ∈ ls, l.name ∉ rem) → (∀ l ∈ ls, l.name ≠ h.name) →
      Converged r h → Converged (syncLoop noFaults rem ins r ls).2.1 h := by
  intro ls
  induction ls with
  | nil => intro r h _ _ hc; exact hc
  | cons l ls ih =>
      intro r h h1 h2 hc
      have hstep := syncStep_preserves_converged rem ins r l h
        (h1 l (List.mem_cons_self l ls)) (h2 l (List.mem_cons_self l ls)) hc
      simp only [syncLoop]
      split
      · exact hstep
      · exact ih _ h (fun x hx => h1 x (List.mem_cons_of_mem l hx))
          (fun x hx => h2 x (List.mem_cons_of_mem l hx)) hstep

/-- A fully successful converger pass establishes `Converged` for every
desired descriptor, provided names are unique, every descriptor already
remote is recorded so, and every descriptor to be created has no aliases
(the create path never sets aliases). -/
theorem syncLoop_establishes (E names : List String) :
    ∀ (ls : List GroupData) (r : Remote),
      (∀ l ∈ ls, l.name ∈ names) →
      (ls.map GroupData.name).Nodup →
      (∀ l ∈ ls, l.name ∈ E → l.name ∈ r.groups) →
      (∀ l ∈ ls, l.name ∉ E → l.aliases = []) →
      ∀ g ∈ ls,
        Converged (syncLoop noFaults (remove_list E names) (insert_list E names) r ls).2.1 g := by
  intro ls
  induction ls with
  | nil => intro r _ _ _ _ g hg; exact absurd hg (List.not_mem_nil g)
  | cons l ls ih =>
      intro r hnm hnodup hE hca g hg
      have hlnm := hnm l (List.mem_cons_self l ls)
      have hndl : l.name ∉ remove_list E names := name_not_in_remove_list E hlnm
      have hstepconv : Converged
          (syncStep noFaults (remove_list E names) (insert_list E names) r l).2.1 l := by
        by_cases hEl : l.name ∈ E
        · rw [syncStep_update noFaults r l hlnm hEl]
          obtain ⟨hgr, hm, ha⟩ := ug_converges r l
          exact ⟨hgr ▸ hE l (List.mem_cons_self l ls) hEl, hm, ha⟩
        · rw [syncStep_create noFaults r l hlnm hEl]
          obtain ⟨hgr, hm, ha⟩ := cg_converges r l
          refine ⟨hgr ▸ List.mem_append_right _ (List.mem_singleton_self _), hm, ?_⟩
          intro x
          rw [ha, hca l (List.mem_cons_self l ls) hEl]
          simp
      have hnotraised :
          (syncStep noFaults (remove_list E names) (insert_list E names) r l).2.2 = false :=
        syncStep_not_raised noFaults _ _ r l hndl (nf_gi _) (nf_al _)
      have hnamesne : ∀ x ∈ ls, x.name ≠ l.name := by
        intro x hx
        have := hnodup
        simp only [List.map_cons, List.nodup_cons] at this
        intro he
        exact this.1 (he ▸ List.mem_map_of_mem GroupData.name hx)
      simp only [syncLoop]
      rw [hnotraised]
      simp only [Bool.false_eq_true, if_false]
      rcases List.mem_cons.mp hg with rfl | hg'
      · exact syncLoop_preserves_converged _ _ ls _ g
          (fun x hx => name_not_in_remove_list E (hnm x (List.mem_cons_of_mem g hx)))
          hnamesne hstepconv
      · apply ih _ (fun x hx => hnm x (List.mem_cons_of_mem l hx))
          (by simp only [List.map_cons, List.nodup_cons] at hnodup; exact hnodup.2)
          ?_ (fun x hx => hca x (List.mem_cons_of_mem l hx)) g hg'
        intro x hx hxE
        exact syncStep_groups_mono noFaults _ _ r l x.name hndl
          (hE x (List.mem_cons_of_mem l hx) hxE)

theorem uga_trace_converged (r : Remote) (g : GroupData)
    (ha : ∀ x, x ∈ r.aliasesOf (atDomain g.name) ↔ x ∈ g.aliases.map atDomain) :
    (update_group_aliases noFaults r g).1 = [Call.aliasList (atDomain g.name)] := by
  simp only [update_group_aliases, nf_al, Bool.false_eq_true, if_false]
  rw [remove_list_eq_nil (fun x hx => (ha x).mp hx),
      insert_list_eq_nil (fun x hx => (ha x).mpr hx)]
  simp

theorem umm_trace_converged (r : Remote) (g : GroupData)
    (hm : ∀ x, x ∈ r.membersOf (atDomain g.name) ↔ x ∈ g.addresses) :
    (update_group_members noFaults r g).1 = [Call.membersList (atDomain g.name)] := by
  simp only [update_group_members, nf_ml, Bool.false_eq_true, if_false]
  rw [remove_list_eq_nil (fun x hx => (hm x).mp hx),
      insert_list_eq_nil (fun x hx => (hm x).mpr hx)]
  simp

/-- On an already-converged group, the fault-free update branch only lists:
its whole trace is the alias listing followed by the member listing. -/
theorem ug_trace_converged (r : Remote) (g : GroupData)
    (hm : ∀ x, x ∈ r.membersOf (atDomain g.name) ↔ x ∈ g.addresses)
    (ha : ∀ x, x ∈ r.aliasesOf (atDomain g.name) ↔ x ∈ g.aliases.map atDomain) :
    (update_group noFaults r g.name g).1 =
      [Call.aliasList (atDomain g.name), Call.membersList (atDomain g.name)] := by
  have hr : (update_group_aliases noFaults r g).2.2 = false := by
    rw [uga_raised]; exact nf_al _
  simp only [update_group, hr, Bool.false_eq_true, if_false]
  rw [uga_trace_converged r g ha, umm_trace_converged _ g ?_]
  · rfl
  · intro x
    rw [congrFun (uga_state noFaults r g).1.2 (atDomain g.name)]
    exact hm x

/-- Over a list of converged groups with unique names the fault-free loop
issues only listing calls. -/
theorem syncLoop_no_mutation (E names : List String) :
    ∀ (ls : List GroupData) (r : Remote),
      (∀ l ∈ ls, l.name ∈ names) →
      (∀ l ∈ ls, l.name ∈ E) →
      (ls.map GroupData.name).Nodup →
      (∀ l ∈ ls, Converged r l) →
      ∀ c ∈ (syncLoop noFaults (remove_list E names) (insert_list E names) r ls).1,
        c.isMutation = false := by
  intro ls
  induction ls with
  | nil => intro r _ _ _ _ c hc; exact absurd hc (List.not_mem_nil c)
  | cons l ls ih =>
      intro r hnm hE hnodup hconv c hc
      have hlnm := hnm l (List.mem_cons_self l ls)
      have hndl : l.name ∉ remove_list E names := name_not_in_remove_list E hlnm
      have hstep : syncStep noFaults (remove_list E names) (insert_list E names) r l =
          update_group noFaults r l.name l :=
        syncStep_update noFaults r l hlnm (hE l (List.mem_cons_self l ls))
      obtain ⟨-, hm, ha⟩ := hconv l (List.mem_cons_self l ls)
      have htr : (syncStep noFaults (remove_list E names) (insert_list E names) r l).1 =
          [Call.aliasList (atDomain l.name), Call.membersList (atDomain l.name)] := by
        rw [hstep]
        exact ug_trace_converged r l hm ha
      have hnotraised :
          (syncStep noFaults (remove_list E names) (insert_list E names) r l).2.2 = false :=
        syncStep_not_raised noFaults _ _ r l hndl (nf_gi _) (nf_al _)
      have hnamesne : ∀ x ∈ ls, x.name ≠ l.name := by
        intro x hx
        simp only [List.map_cons, List.nodup_cons] at hnodup
        intro he
        exact hnodup.1 (he ▸ List.mem_map_of_mem GroupData.name hx)
      simp only [syncLoop] at hc
      rw [hnotraised] at hc
      simp only [Bool.false_eq_true, if_false] at hc
      rcases List.mem_append.mp hc with hc | hc
      · rw [htr] at hc
        rcases List.mem_cons.mp hc with rfl | hc
        · rfl
        · rcases List.mem_singleton.mp hc with rfl
          rfl
      · apply ih _ (fun x hx => hnm x (List.mem_cons_of_mem l hx))
          (fun x hx => hE x (List.mem_cons_of_mem l hx))
          (by simp only [List.map_cons, List.nodup_cons] at hnodup; exact hnodup.2)
          ?_ c hc
        intro x hx
        exact syncStep_preserves_converged _ _ r l x hndl
          (fun he => hnamesne x hx he.symm) (hconv x (List.mem_cons_of_mem l hx))

theorem nf_gl : noFaults.groupsListFails = false := rfl

/-- Claim C9 (amended): if a full sync pass succeeds completely (no fault)
and the desired state is unchanged, an immediately following pass issues zero
add/remove calls for groups, members, and aliases — provided group names are
unique and every group the first pass had to create carries no aliases.  The
proviso is forced: the create path never reconciles aliases, so a group
created with aliases receives its alias-insert calls only on the second
pass. -/
theorem sync_idempotent_amended (r : Remote) (lists : List GroupData)
    (hnodup : (lists.map GroupData.name).Nodup)
    (hca : ∀ g ∈ lists, g.name ∉ r.groups → g.aliases = []) :
    (sync_mailinglists noFaults r lists).2.2 = false ∧
    (sync_mailinglists noFaults (sync_mailinglists noFaults r lists).2.1 lists).2.2 = false ∧
    ∀ c ∈ (sync_mailinglists noFaults (sync_mailinglists noFaults r lists).2.1 lists).1,
      c.isMutation = false := by
  have hnames : ∀ l ∈ lists, l.name ∈ lists.map GroupData.name :=
    fun l hl => List.mem_map_of_mem GroupData.name hl
  have hnd1 : ∀ l ∈ lists, l.name ∉ remove_list r.groups (lists.map GroupData.name) :=
    fun l hl => name_not_in_remove_list r.groups (hnames l hl)
  have hr1conv : ∀ g ∈ lists, Converged (sync_mailinglists noFaults r lists).2.1 g :=
    syncLoop_establishes r.groups (lists.map GroupData.name) lists r hnames hnodup
      (fun l _ h => h) hca
  refine ⟨?_, ?_, ?_⟩
  · show (syncLoop noFaults (remove_list r.groups (lists.map GroupData.name))
        (insert_list r.groups (lists.map GroupData.name)) r lists).2.2 = false
    exact syncLoop_not_raised noFaults _ _ lists r hnd1
      (fun l _ => nf_gi _) (fun l _ => nf_al _)
  · show (syncLoop noFaults
        (remove_list (sync_mailinglists noFaults r lists).2.1.groups
          (lists.map GroupData.name))
        (insert_list (sync_mailinglists noFaults r lists).2.1.groups
          (lists.map GroupData.name))
        (sync_mailinglists noFaults r lists).2.1 lists).2.2 = false
    exact syncLoop_not_raised noFaults _ _ lists _
      (fun l hl => name_not_in_remove_list _ (hnames l hl))
      (fun l _ => nf_gi _) (fun l _ => nf_al _)
  · intro c hc
    have hc' : c = Call.groupsList ∨ c ∈ (syncLoop noFaults
        (remove_list (sync_mailinglists noFaults r lists).2.1.groups
          (lists.map GroupData.name))
        (insert_list (sync_mailinglists noFaults r lists).2.1.groups
          (lists.map GroupData.name))
        (sync_mailinglists noFaults r lists).2.1 lists).1 := List.mem_cons.mp hc
    rcases hc' with rfl | hc'
    · rfl
    · exact syncLoop_no_mutation (sync_mailinglists noFaults r lists).2.1.groups
        (lists.map GroupData.name) lists _ hnames (fun l hl => (hr1conv l hl).1)
        hnodup hr1conv c hc'

/-- Witness for the amended C9: creating and then re-syncing the alias-free
group `C` raises nowhere, and the second pass's first call is no mutation. -/
theorem sync_idempotent_amended_witness :
    (sync_mailinglists noFaults emptyRemote [gC]).2.2 = false ∧
    Call.groupsList.isMutation = false := by
  have h := sync_idempotent_amended emptyRemote [gC] (by decide)
    (by intro g hg _; rcases List.mem_singleton.mp hg with rfl; rfl)
  exact ⟨h.1, h.2.2 Call.groupsList (by decide)⟩

end GSuite
